import Mathlib

/-!
Verification of the dyad repository: a shallow embedding of its
command-interception policy engine (Quoting Normalizer, Injection Detector,
Command Extractor, Command Classifier, Decision Emitter) together with models
of the two Gemini API key-test scripts, and theorems settling the frozen
claims about them.

The policy-engine code itself is not among the repository source files
available here (only the specification describes it), so every engine
component below is modelled from the specification text, as its doc comment
records.  The two Python scripts are translated directly from the source.
-/

namespace Dyad

/-! ### Character constants (kept out of string literals) -/

/-- The single-quote character. -/
def squoteChar : Char := Char.ofNat 39

/-- The double-quote character. -/
def dquoteChar : Char := Char.ofNat 34

/-- The backtick character. -/
def backtickChar : Char := Char.ofNat 96

/-- The opening-brace character. -/
def lbraceChar : Char := Char.ofNat 123

/-- The closing-brace character. -/
def rbraceChar : Char := Char.ofNat 125

/-! ### Small scanning primitives -/

/-- Whether the two-character sequence `a b` occurs (adjacently) in `l`. -/
def hasSub2 (a b : Char) : List Char → Bool
  | x :: y :: rest => (x = a && y = b) || hasSub2 a b (y :: rest)
  | _ => false

/-- Index of the first occurrence of `c` in `l`, if any. -/
def firstIdx (c : Char) : List Char → Option Nat
  | [] => none
  | x :: xs => if x = c then some 0 else (firstIdx c xs).map (· + 1)

/-- Whether a double-quoted span contains an expansion marker (a backtick or
a dollar-paren command substitution), per the Quoting Normalizer contract. -/
def hasExpansionMarker (s : List Char) : Bool :=
  s.contains backtickChar || hasSub2 '$' '(' s

/-! ### Quoting Normalizer -/

/-- Fuel-driven worker for the Quoting Normalizer; each step consumes at
least one input character, so the input length is always enough fuel. -/
def normGo : Nat → List Char → List Char
  | _, [] => []
  | 0, l => l
  | fuel + 1, x :: xs =>
    if x = squoteChar then
      match firstIdx squoteChar xs with
      | some i => squoteChar :: squoteChar :: normGo fuel (xs.drop (i + 1))
      | none => x :: xs
    else if x = dquoteChar then
      match firstIdx dquoteChar xs with
      | some i =>
        if hasExpansionMarker (xs.take i) then
          dquoteChar :: ((xs.take i) ++ dquoteChar :: normGo fuel (xs.drop (i + 1)))
        else
          dquoteChar :: dquoteChar :: normGo fuel (xs.drop (i + 1))
      | none => x :: xs
    else x :: normGo fuel xs

/-- Modelled from the spec: the Quoting Normalizer.  Every maximal
single-quoted substring is replaced by an empty-quote placeholder, and every
maximal double-quoted substring containing no expansion marker is likewise
replaced; double-quoted spans that do contain an expansion marker are left
untouched so the Injection Detector can inspect their interior. -/
def normChars (l : List Char) : List Char :=
  normGo l.length l

/-! ### Injection Detector -/

/-- The fixed allow-list of pure text-processing tools to which a pipe is
considered safe (json filter, head, tail, grep, word-count, sort, uniq, cut,
tr, pagers). -/
def allowTools : List (List Char) :=
  [['j', 'q'], ['h', 'e', 'a', 'd'], ['t', 'a', 'i', 'l'],
   ['g', 'r', 'e', 'p'], ['w', 'c'], ['s', 'o', 'r', 't'],
   ['u', 'n', 'i', 'q'], ['c', 'u', 't'], ['t', 'r'],
   ['l', 'e', 's', 's'], ['m', 'o', 'r', 'e']]

/-- A word boundary: end of input, or a non-alphanumeric character. -/
def boundaryOk : List Char → Bool
  | [] => true
  | c :: _ => !c.isAlphanum

/-- Whether the tool word `t` occurs at the head of `l`, ending at a word
boundary. -/
def toolPrefixAt (t l : List Char) : Bool :=
  t.isPrefixOf l && boundaryOk (l.drop t.length)

/-- Whether the text following a pipe (after optional spaces) begins with an
allow-listed text-processing tool, making the pipe safe. -/
def safePipeAfter (l : List Char) : Bool :=
  allowTools.any (fun t => toolPrefixAt t (l.dropWhile (· = ' ')))

/-- Modelled from the spec: replacement of safe pipes.  A pipe immediately
followed (after optional spaces) by an allow-listed text-processing tool is
replaced by a neutral space placeholder; every other character is kept. -/
def replPipes : List Char → List Char
  | [] => []
  | c :: rest =>
    (if c = '|' && safePipeAfter rest then ' ' else c) :: replPipes rest

/-- Modelled from the spec: replacement of standard file-descriptor
redirections of the form digit-greater-ampersand-digit with neutral space
placeholders (positions are preserved). -/
def replFd : List Char → List Char
  | c :: '>' :: '&' :: e :: rest2 =>
    if c.isDigit && e.isDigit then c :: ' ' :: ' ' :: e :: replFd rest2
    else c :: replFd ('>' :: '&' :: e :: rest2)
  | c :: rest => c :: replFd rest
  | [] => []

/-- Whether `l` contains a solitary pipe: a pipe character neither preceded
nor followed by another pipe. -/
def soloPipe (l : List Char) : Bool :=
  (List.range l.length).any fun i =>
    l.getD i ' ' = '|' && (decide (i = 0) || !(l.getD (i - 1) ' ' = '|'))
      && !(l.getD (i + 1) ' ' = '|')

/-- Whether `l` contains a background operator followed by further
non-whitespace text (a bare trailing ampersand is not flagged). -/
def bgAmp : List Char → Bool
  | [] => false
  | '&' :: rest => rest.any (fun c => !c.isWhitespace) || bgAmp rest
  | _ :: rest => bgAmp rest

/-- Modelled from the spec: the Injection Detector.  After replacing safe
pipes and standard file-descriptor redirections with neutral placeholders,
it flags statement separators, solitary pipes, pipe-pipe, and-and, a
background operator followed by text, backtick substitution, dollar-paren
substitution, ANSI-C quoting, and process substitution. -/
def hasInjection (l : List Char) : Bool :=
  let r := replFd (replPipes l)
  r.contains ';' || r.contains '\n' || r.contains '\r' ||
  hasSub2 '&' '&' r || hasSub2 '|' '|' r || soloPipe r || bgAmp r ||
  r.contains backtickChar || hasSub2 '$' '(' r || hasSub2 '$' squoteChar r ||
  hasSub2 '<' '(' r || hasSub2 '>' '(' r

/-! ### Quoting-span decompositions

To state the Injection Detector claim we describe a command as a sequence of
segments: plain (unquoted) text, single-quoted spans, and double-quoted
spans.  `render` turns such a decomposition back into the raw command. -/

/-- One segment of a command: unquoted text, a single-quoted span's content,
or a double-quoted span's content. -/
inductive Seg where
  | lit (s : List Char)
  | squoted (s : List Char)
  | dquoted (s : List Char)
deriving DecidableEq

/-- The raw text of one segment, quotes included. -/
def renderSeg : Seg → List Char
  | .lit s => s
  | .squoted s => squoteChar :: s ++ [squoteChar]
  | .dquoted s => dquoteChar :: s ++ [dquoteChar]

/-- The raw command described by a segment list. -/
def render (segs : List Seg) : List Char :=
  (segs.map renderSeg).flatten

/-- The normalized text of one segment: quoted spans collapse to empty-quote
placeholders except double-quoted spans containing an expansion marker. -/
def renderNormSeg : Seg → List Char
  | .lit s => s
  | .squoted _ => [squoteChar, squoteChar]
  | .dquoted s =>
    if hasExpansionMarker s then dquoteChar :: s ++ [dquoteChar]
    else [dquoteChar, dquoteChar]

/-- Well-formedness of one segment: its content cannot terminate the span
early (and unquoted text contains no quote characters at all). -/
def segWFb : Seg → Bool
  | .lit s => !s.contains squoteChar && !s.contains dquoteChar
  | .squoted s => !s.contains squoteChar
  | .dquoted s => !s.contains dquoteChar

/-- No two adjacent unquoted segments (the decomposition is canonical). -/
def noAdjLits : List Seg → Bool
  | .lit _ :: .lit _ :: _ => false
  | _ :: rest => noAdjLits rest
  | [] => true

/-- Well-formedness of a decomposition. -/
def wfSegs (segs : List Seg) : Bool :=
  segs.all segWFb && noAdjLits segs

/-- Whether unquoted text contains one of the claim's shell metacharacters:
a statement separator, a backtick, a dollar-paren substitution, an and-and,
or a pipe-pipe. -/
def litBad (s : List Char) : Bool :=
  s.contains ';' || s.contains backtickChar || hasSub2 '$' '(' s ||
  hasSub2 '&' '&' s || hasSub2 '|' '|' s

/-- Whether unquoted text contains a lone pipe that is not followed by an
allow-listed text-processing tool. -/
def lonePipeAt (s : List Char) : Bool :=
  (List.range s.length).any fun i =>
    decide (s.get? i = some '|') && !safePipeAfter (s.drop (i + 1))

/-- Whether a decomposition contains, in unquoted text, one of the claim's
metacharacters or an unsafe lone pipe, or a double-quoted span carrying an
expansion marker. -/
def badSegs : List Seg → Bool
  | [] => false
  | .lit s :: rest => litBad s || lonePipeAt s || badSegs rest
  | .squoted _ :: rest => badSegs rest
  | .dquoted s :: rest => hasExpansionMarker s || badSegs rest

/-! ### Command Extractor -/

/-- Drop leading whitespace. -/
def skipSpaces (l : List Char) : List Char :=
  l.dropWhile (·.isWhitespace)

/-- The first whitespace-delimited token of `l`. -/
def firstToken (l : List Char) : List Char :=
  l.takeWhile (fun c => !c.isWhitespace)

/-- Match the word `w` at the head of `l`, requiring a whitespace separator
right after it; on success return the suffix beginning with that separator. -/
def matchWord (w l : List Char) : Option (List Char) :=
  if w.isPrefixOf l then
    match l.drop w.length with
    | [] => none
    | c :: rest => if c.isWhitespace then some (c :: rest) else none
  else none

/-- Whether a character may start a shell variable name. -/
def isNameHead (c : Char) : Bool := c.isAlpha || c = '_'

/-- Whether a character may continue a shell variable name. -/
def isNameChar (c : Char) : Bool := c.isAlphanum || c = '_'

/-- Skip one assignment value: a single-quoted string, a double-quoted
string, or an unquoted run with no whitespace. -/
def skipValue (v : List Char) : Option (List Char) :=
  match v with
  | [] => some []
  | c :: rest =>
    if c = squoteChar then (firstIdx squoteChar rest).map (fun i => rest.drop (i + 1))
    else if c = dquoteChar then (firstIdx dquoteChar rest).map (fun i => rest.drop (i + 1))
    else some ((c :: rest).dropWhile (fun c => !c.isWhitespace))

/-- Skip one `NAME=value` environment assignment. -/
def skipAssign (l : List Char) : Option (List Char) :=
  match l with
  | [] => none
  | c :: _ =>
    if isNameHead c then
      match l.dropWhile isNameChar with
      | '=' :: v => skipValue v
      | _ => none
    else none

/-- Whether what follows a consumed assignment is a proper separator. -/
def sepOk : List Char → Bool
  | [] => true
  | c :: _ => c.isWhitespace

/-- Skip a maximal run of whitespace-separated `NAME=value` assignments
(fuel-driven; each step consumes at least one character, so the input length
is always enough fuel). -/
def skipAssignsGo : Nat → List Char → List Char
  | 0, l => l
  | fuel + 1, l =>
    match skipAssign l with
    | some rest =>
      if sepOk rest then skipAssignsGo fuel (skipSpaces rest) else l
    | none => l

/-- Skip the leading environment assignments of a command. -/
def skipAssigns (l : List Char) : List Char :=
  skipAssignsGo l.length l

/-- The governed tool's invocation keyword. -/
def ghWord : List Char := ['g', 'h']

/-- Modelled from the spec: the wrapper-unwinding stage of the Command
Extractor.  Starting at the head of the string it consumes optional `sudo`,
optional `command`, optional `env`, and zero-or-more `NAME=value`
assignments, yielding the anchor suffix — the one position at which the
invocation keyword may legitimately appear. -/
def anchorRest (cmd : List Char) : List Char :=
  let l0 := skipSpaces cmd
  let l1 := match matchWord ['s', 'u', 'd', 'o'] l0 with
    | some r => skipSpaces r
    | none => l0
  let l2 := match matchWord ['c', 'o', 'm', 'm', 'a', 'n', 'd'] l1 with
    | some r => skipSpaces r
    | none => l1
  let l3 := match matchWord ['e', 'n', 'v'] l2 with
    | some r => skipSpaces r
    | none => l2
  skipAssigns l3

/-- Modelled from the spec: the Command Extractor.  Anchored at the start of
the string, it recognizes the governed tool's invocation directly or after
the bounded wrapper/assignment sequence consumed by `anchorRest`, requiring
a trailing separator after the invocation keyword; it returns none when the
string does not target the governed tool. -/
def extract (cmd : List Char) : Option (List Char) :=
  match matchWord ghWord (anchorRest cmd) with
  | some _ => some (anchorRest cmd)
  | none => none

/-! ### Decisions -/

/-- The engine's verdict. -/
inductive Verdict where
  | allow
  | deny
  | defer
deriving DecidableEq

/-- A decision: exactly one verdict per command, plus a human-readable
reason. -/
structure Decision where
  verdict : Verdict
  reason : String
deriving DecidableEq

/-! ### Command Classifier -/

/-- Worker for whitespace collapsing: `prevWs` records whether the previous
character was whitespace (a continuing run emits nothing). -/
def collapseGo (prevWs : Bool) : List Char → List Char
  | [] => []
  | c :: rest =>
    if c.isWhitespace then
      if prevWs then collapseGo true rest else ' ' :: collapseGo true rest
    else c :: collapseGo false rest

/-- Collapse runs of whitespace into single spaces so rule patterns need not
account for formatting variance. -/
def collapseWs (l : List Char) : List Char :=
  collapseGo false l

/-- Whether the pattern `p` matches the invocation `l` as a prefix ending at
a word boundary. -/
def patAt (p l : List Char) : Bool :=
  p.isPrefixOf l && boundaryOk (l.drop p.length)

/-- The review-workflow GraphQL mutations on the fixed allow-list
(resolving or unresolving a review thread, adding a review or a review
comment). -/
def allowedMutations : List (List Char) :=
  [(String.toList "resolveReviewThread"),
   (String.toList "unresolveReviewThread"),
   (String.toList "addPullRequestReview"),
   (String.toList "addPullRequestReviewComment")]

/-- After a `mutation` or `query` keyword: optional operation name, optional
parenthesized variables, then an opening brace; returns the text following
the brace when the shape matches. -/
def parseOpHead (l : List Char) : Option (List Char) :=
  let l1 := (l.dropWhile (·.isWhitespace)).dropWhile isNameChar
  let l2 := l1.dropWhile (·.isWhitespace)
  match l2 with
  | '(' :: rest =>
    match firstIdx ')' rest with
    | some i =>
      match (rest.drop (i + 1)).dropWhile (·.isWhitespace) with
      | c :: body => if c = lbraceChar then some body else none
      | [] => none
    | none => none
  | c :: body => if c = lbraceChar then some body else none
  | [] => none

/-- Scan for keyword `w` occurring at a word boundary and heading an
operation (per `parseOpHead`); `prevName` records whether the previous
character could continue a name.  Returns the operation body after the
opening brace. -/
def findOpGo (w : List Char) (prevName : Bool) : List Char → Option (List Char)
  | [] => none
  | c :: rest =>
    if !prevName && w.isPrefixOf (c :: rest)
        && !(((c :: rest).drop w.length).headD ' ').isAlphanum then
      match parseOpHead ((c :: rest).drop w.length) with
      | some body => some body
      | none => findOpGo w (isNameChar c) rest
    else findOpGo w (isNameChar c) rest

/-- Find an operation headed by keyword `w` anywhere in the invocation. -/
def findOp (w l : List Char) : Option (List Char) :=
  findOpGo w false l

/-- The name immediately following an operation's opening brace. -/
def opNameAfterBrace (body : List Char) : List Char :=
  (body.dropWhile (·.isWhitespace)).takeWhile isNameChar

/-- The immediate operation name of the first structurally identifiable
mutation, if any. -/
def findMutationName (l : List Char) : Option (List Char) :=
  (findOp (String.toList "mutation") l).map opNameAfterBrace

/-- Whether a `query` operation is structurally identifiable. -/
def hasQueryOp (l : List Char) : Bool :=
  (findOp (String.toList "query") l).isSome

/-- Modelled from the spec: the GraphQL sub-classifier.  Mutation detection
is performed first and wins regardless of declared operation order; a
mutation is denied unless its immediate operation name is allow-listed; a
query with no mutation is allowed; neither keyword means Defer. -/
def classifyGraphql (inv : List Char) : Decision :=
  match findMutationName inv with
  | some n =>
    if allowedMutations.contains n then
      ⟨Verdict.allow, "allow-listed review-workflow mutation"⟩
    else
      ⟨Verdict.deny, "GraphQL mutation"⟩
  | none =>
    if hasQueryOp inv then ⟨Verdict.allow, "GraphQL query"⟩
    else ⟨Verdict.defer, "ambiguous GraphQL payload"⟩

/-- The HTTP methods treated as writes. -/
def writeMethods : List (List Char) :=
  [(String.toList "POST"), (String.toList "PUT"),
   (String.toList "PATCH"), (String.toList "DELETE")]

/-- The token (dropping surrounding quotes) following a method flag. -/
def methodToken (l : List Char) : List Char :=
  let t := firstToken (skipSpaces l)
  t.filter (fun c => !(c = squoteChar) && !(c = dquoteChar))

/-- Find the explicit HTTP-method flag value in an api invocation, in
space- or equals-joined form, optionally quoted. -/
def findMethodGo : List Char → Option (List Char)
  | [] => none
  | c :: rest =>
    if patAt (String.toList "--method=") (c :: rest) then
      some (methodToken ((c :: rest).drop 9))
    else if patAt (String.toList "--method") (c :: rest) then
      some (methodToken ((c :: rest).drop 8))
    else if (String.toList "-X=").isPrefixOf (c :: rest) then
      some (methodToken ((c :: rest).drop 3))
    else if (String.toList "-X").isPrefixOf (c :: rest) then
      some (methodToken ((c :: rest).drop 2))
    else findMethodGo rest

/-- The explicit HTTP method of an api invocation, if present. -/
def findMethod (l : List Char) : Option (List Char) :=
  findMethodGo l

/-- Whether the invocation carries a payload flag (input or field). -/
def hasPayloadFlag (l : List Char) : Bool :=
  hasSub2 '-' 'f' l || hasSub2 '-' 'F' l ||
  (List.range l.length).any (fun i =>
    (String.toList "--input").isPrefixOf (l.drop i) ||
    (String.toList "--field").isPrefixOf (l.drop i))

/-- Split on a separator character. -/
def splitOnChar (c : Char) : List Char → List (List Char)
  | [] => [[]]
  | x :: xs =>
    if x = c then [] :: splitOnChar c xs
    else
      match splitOnChar c xs with
      | s :: rest => (x :: s) :: rest
      | [] => [[x]]

/-- Match an endpoint path against a pattern where `none` is a wildcard
segment. -/
def pathMatch : List (Option (List Char)) → List (List Char) → Bool
  | [], [] => true
  | some p :: ps, s :: ss => p = s && pathMatch ps ss
  | none :: ps, _ :: ss => pathMatch ps ss
  | _, _ => false

/-- The endpoint argument of an api invocation: the first token after
`gh api` that does not begin with a dash. -/
def apiEndpoint (l : List Char) : List Char :=
  firstToken (skipSpaces (l.drop (String.toList "gh api").length))

/-- Modelled from the spec: the two narrow allow-exception endpoint shapes
(posting a reply to an existing review-comment thread; posting a new comment
on an issue). -/
def endpointException (ep : List Char) : Bool :=
  let segs := splitOnChar '/' ep
  pathMatch [some (String.toList "repos"), none, none,
             some (String.toList "pulls"), none,
             some (String.toList "comments"), none,
             some (String.toList "replies")] segs ||
  pathMatch [some (String.toList "repos"), none, none,
             some (String.toList "issues"), none,
             some (String.toList "comments")] segs

/-- Modelled from the spec: the generic structured-API sub-classifier.
GET, explicit or defaulted, is allowed; write methods are denied unless an
allow-exception endpoint shape applies; payload flags without an explicit
method count as evidence of a write. -/
def classifyApi (inv : List Char) : Decision :=
  let ep := apiEndpoint inv
  match findMethod inv with
  | some m =>
    if m = String.toList "GET" then ⟨Verdict.allow, "GET api call"⟩
    else if writeMethods.contains m then
      if endpointException ep then
        ⟨Verdict.allow, "allow-exception endpoint"⟩
      else ⟨Verdict.deny, "write api call"⟩
    else ⟨Verdict.defer, "unrecognized api method"⟩
  | none =>
    if hasPayloadFlag inv then
      if endpointException ep then
        ⟨Verdict.allow, "allow-exception endpoint"⟩
      else ⟨Verdict.deny, "payload without explicit method"⟩
    else ⟨Verdict.allow, "api call defaults to GET"⟩

/-- The read-only rule table (first table; a match allows). -/
def readRules : List (List Char) :=
  [String.toList "gh pr view", String.toList "gh pr list",
   String.toList "gh pr status", String.toList "gh pr diff",
   String.toList "gh pr checks", String.toList "gh issue view",
   String.toList "gh issue list", String.toList "gh issue status",
   String.toList "gh repo view", String.toList "gh repo list",
   String.toList "gh release view", String.toList "gh release list",
   String.toList "gh run view", String.toList "gh run list",
   String.toList "gh workflow view", String.toList "gh workflow list",
   String.toList "gh label list", String.toList "gh search",
   String.toList "gh browse", String.toList "gh auth status",
   String.toList "gh config get"]

/-- The explicit write-allow rule table (second table; narrow
workflow-specific exceptions). -/
def writeRules : List (List Char) :=
  [String.toList "gh pr create", String.toList "gh pr edit",
   String.toList "gh pr ready", String.toList "gh pr review",
   String.toList "gh pr close", String.toList "gh pr merge",
   String.toList "gh pr comment", String.toList "gh issue create",
   String.toList "gh issue edit", String.toList "gh issue close",
   String.toList "gh issue reopen", String.toList "gh issue comment"]

/-- The destructive deny rule table (third table), with a human-readable
category name per pattern. -/
def denyRules : List (List Char × String) :=
  [(String.toList "gh repo delete", "repository deletion"),
   (String.toList "gh release delete", "release deletion"),
   (String.toList "gh issue delete", "issue deletion"),
   (String.toList "gh issue pin", "issue pinning"),
   (String.toList "gh issue unpin", "issue pinning"),
   (String.toList "gh issue transfer", "issue transfer"),
   (String.toList "gh label create", "label mutation"),
   (String.toList "gh label edit", "label mutation"),
   (String.toList "gh label delete", "label mutation"),
   (String.toList "gh secret", "secret management"),
   (String.toList "gh variable", "variable management"),
   (String.toList "gh auth logout", "auth logout"),
   (String.toList "gh config set", "config write"),
   (String.toList "gh workflow enable", "workflow toggle"),
   (String.toList "gh workflow disable", "workflow toggle"),
   (String.toList "gh run cancel", "run control"),
   (String.toList "gh run rerun", "run control")]

/-- Modelled from the spec: the three ordered rule tables, evaluated
read-allow, then write-allow, then deny; no match in any table defers. -/
def classifyTables (inv : List Char) : Decision :=
  if readRules.any (fun p => patAt p inv) then
    ⟨Verdict.allow, "read-only operation"⟩
  else if writeRules.any (fun p => patAt p inv) then
    ⟨Verdict.allow, "explicitly-permitted write operation"⟩
  else
    match denyRules.find? (fun r => patAt r.1 inv) with
    | some r => ⟨Verdict.deny, r.2⟩
    | none => ⟨Verdict.defer, "no rule matched"⟩

/-- Modelled from the spec: the Command Classifier.  Whitespace is collapsed
first; GraphQL calls and generic api calls go to their sub-classifiers, and
plain subcommand invocations to the three ordered rule tables. -/
def classify (inv : List Char) : Decision :=
  let inv := collapseWs inv
  if patAt (String.toList "gh api graphql") inv then classifyGraphql inv
  else if (String.toList "gh api ").isPrefixOf inv then classifyApi inv
  else classifyTables inv

/-! ### The engine -/

/-- The host-side tool name whose requests the engine governs. -/
def governedHostTool : String := "Bash"

/-- The engine's input: an unparseable request payload, or a parsed request
carrying the host tool name and the proposed command. -/
inductive EngineInput where
  | malformed
  | request (toolName : String) (command : List Char)

/-- Modelled from the spec: the full engine.  Malformed input defers;
an out-of-domain tool name defers; a detected injection on the normalized
original command denies before any extraction; a command not targeting the
governed tool defers; otherwise the classifier decides. -/
def evaluate : EngineInput → Decision
  | .malformed => ⟨Verdict.defer, "malformed input"⟩
  | .request tn cmd =>
    if tn = governedHostTool then
      if hasInjection (normChars cmd) then
        ⟨Verdict.deny, "injection detected"⟩
      else
        match extract cmd with
        | none => ⟨Verdict.defer, "command does not target the governed tool"⟩
        | some inv => classify inv
    else ⟨Verdict.defer, "out-of-domain tool"⟩

/-- Whether an input falls into one of the spec's failure modes: malformed
input, out-of-domain command, detected injection, or ambiguous
classification. -/
def isFailureMode : EngineInput → Bool
  | .malformed => true
  | .request tn cmd =>
    !(tn = governedHostTool) || hasInjection (normChars cmd) ||
    (match extract cmd with
     | none => true
     | some inv => decide ((classify inv).verdict = Verdict.defer))

/-! ### Models of the two API key-test scripts

`test-google-key.py` and `test-gemini-flash-latest.py` each issue one HTTP
POST to the Gemini API and react to its outcome.  The outcome of that call
is modelled by `HttpOutcome`; Python values appearing in response bodies are
modelled by `Json`, and an access that would raise (missing key, wrong type,
out-of-range index, unparseable body) is modelled as `none`, which the
scripts' `except` clauses turn into their failure paths. -/

/-- A JSON-like Python value. -/
inductive Json where
  | null
  | bool (b : Bool)
  | num (n : Int)
  | str (s : String)
  | arr (l : List Json)
  | obj (l : List (String × Json))

/-- A response body: either text that `response.json()` fails to parse, or a
parsed value. -/
inductive Body where
  | notJson
  | json (j : Json)

/-- The outcome of the single `requests.post` call: a response with status
code and body, a timeout, a requests-level error, or any other raised
exception. -/
inductive HttpOutcome where
  | response (status : Nat) (body : Body)
  | timeout
  | requestError
  | otherError

/-- Python `d[k]` for a string key: succeeds only on a dict. -/
def getItem (j : Json) (k : String) : Option Json :=
  match j with
  | .obj l => (l.find? (fun p => p.1 = k)).map (·.2)
  | _ => none

/-- Substring test: whether `needle` occurs contiguously inside `hay`. -/
def strHasSub (needle hay : List Char) : Bool :=
  (List.range (hay.length + 1)).any (fun i => needle.isPrefixOf (hay.drop i))

/-- Python `k in d`: key test on dicts, membership on lists, substring test
on strings; raises (none) on other types. -/
def hasKey (j : Json) (k : String) : Option Bool :=
  match j with
  | .obj l => some (l.any (fun p => p.1 = k))
  | .arr l => some (l.any (fun x => match x with
      | .str s => s = k
      | _ => false))
  | .str s => some (strHasSub k.toList s.toList)
  | _ => none

/-- Python `x[i]` for an integer index: list indexing (raising out of
range), string indexing, raising on dicts and scalars. -/
def getIdx (j : Json) (i : Nat) : Option Json :=
  match j with
  | .arr l => l.get? i
  | .str s => (s.toList.get? i).map (fun c => Json.str (String.mk [c]))
  | _ => none

/-- Python `len(x)`: length of lists, dicts, and strings; raises on
scalars. -/
def pyLen (j : Json) : Option Nat :=
  match j with
  | .arr l => some l.length
  | .obj l => some l.length
  | .str s => some s.length
  | _ => none

/-- The candidate-text access chain of `test-google-key.py` lines 55-61:
the guard `"candidates" in data and len(data["candidates"]) > 0`, then
`data["candidates"][0]["content"]["parts"][0]["text"]`.  `some b` is the
function's return value; `none` is a raised exception. -/
def candChain (data : Json) : Option Bool := do
  let hk ← hasKey data "candidates"
  if hk then
    let c ← getItem data "candidates"
    let n ← pyLen c
    if n > 0 then
      let c0 ← getIdx c 0
      let ct ← getItem c0 "content"
      let p ← getItem ct "parts"
      let p0 ← getIdx p 0
      let _ ← getItem p0 "text"
      pure true
    else
      pure false
  else
    pure false

/-- `test_google_api` of `test-google-key.py`: True only on the 200 branch
with the candidate text successfully extracted; the 429, 401 and
other-status branches return False; the `except` clauses (timeout,
request exception, any other exception) return False. -/
def test_google_api : HttpOutcome → Bool
  | .timeout => false
  | .requestError => false
  | .otherError => false
  | .response status body =>
    if status = 200 then
      match body with
      | .notJson => false
      | .json data => (candChain data).getD false
    else false

/-- The `timeout=` argument of the `requests.post` call in
`test-google-key.py` line 47. -/
def googleKeyRequestTimeout : Option Nat := some 10

/-- The `timeout=` argument of the `requests.post` call in
`test-gemini-flash-latest.py` line 16. -/
def geminiRequestTimeout : Option Nat := some 10

/-- The `__main__` block of `test-google-key.py` lines 126-137: exit 0 when
`test_google_api` returns True, exit 1 otherwise. -/
def googleKeyExit (o : HttpOutcome) : Nat :=
  if test_google_api o then 0 else 1

/-- The try-block of `test-gemini-flash-latest.py` lines 15-31 as it
depends on the request outcome; `none` is a raised exception reaching the
module-level `except`. -/
def geminiTryBody (o : HttpOutcome) : Option Unit :=
  match o with
  | .timeout => none
  | .requestError => none
  | .otherError => none
  | .response status body =>
    if status = 200 then
      match body with
      | .notJson => none
      | .json data => do
        let c ← getItem data "candidates"
        let c0 ← getIdx c 0
        let ct ← getItem c0 "content"
        let p ← getItem ct "parts"
        let p0 ← getIdx p 0
        let _ ← getItem p0 "text"
        pure ()
    else
      match body with
      | .notJson => none
      | .json err => do
        let he ← hasKey err "error"
        if he then
          match getItem err "error" with
          | some (.obj _) => pure ()
          | _ => none
        else
          pure ()

/-- The whole `test-gemini-flash-latest.py` run: the try-block's exception,
if any, is swallowed by the module-level `except Exception`, and the script
never calls exit with a non-zero status, so the process exit code is 0 on
every path. -/
def geminiExit (o : HttpOutcome) : Nat :=
  match geminiTryBody o with
  | some _ => 0
  | none => 0

/-! ### Predicates used to state the Injection Detector claim -/

/-- A normalized command is overtly dangerous: it contains (outside of any
remaining quoted placeholder structure) a statement separator, a backtick, a
dollar-paren substitution, an and-and, a pipe-pipe, or a pipe not followed
by an allow-listed text-processing tool. -/
def NBad (l : List Char) : Prop :=
  (';') ∈ l ∨ backtickChar ∈ l ∨ hasSub2 '$' '(' l = true ∨
  hasSub2 '&' '&' l = true ∨ hasSub2 '|' '|' l = true ∨
  ∃ u v, l = u ++ '|' :: v ∧ safePipeAfter v = false

/-- A continuation is quote-initial or empty; this is the shape of the text
that can follow an unquoted segment in a normalized well-formed command. -/
def ContOk (l : List Char) : Prop :=
  l = [] ∨ (∃ t, l = squoteChar :: t) ∨ (∃ t, l = dquoteChar :: t)

/-! ### Predicates used to state the other claims -/

/-- The claim's reading of a good response body: the JSON object maps
`candidates` to a non-empty list. -/
def claimCandidatesNonEmpty (b : Body) : Bool :=
  match b with
  | .json d =>
    match getItem d "candidates" with
    | some (.arr l) => !l.isEmpty
    | _ => false
  | .notJson => false

/-- The candidate-text extraction path
`data["candidates"][0]["content"]["parts"][0]["text"]`, as an independent
probe of the body's inner structure. -/
def textExtract (d : Json) : Option Json := do
  let c ← getItem d "candidates"
  let c0 ← getIdx c 0
  let ct ← getItem c0 "content"
  let p ← getItem ct "parts"
  let p0 ← getIdx p 0
  getItem p0 "text"

/-- The outcomes on which `test_google_api` actually reports success:
status 200, a JSON body whose `candidates` member is present and non-empty
(under Python `len`), and a first candidate carrying the
`content.parts[0].text` structure. -/
def goodOutcome (o : HttpOutcome) : Bool :=
  match o with
  | .response s (.json d) =>
    s = 200 && (hasKey d "candidates").getD false &&
    decide (((getItem d "candidates").bind pyLen).getD 0 > 0) &&
    (textExtract d).isSome
  | _ => false

/-- A GraphQL payload that declares a query first and nests a disallowed
mutation afterwards (used to exhibit mutation-over-query precedence). -/
def graphqlProbe : List Char :=
  String.toList "gh api graphql -f query=" ++ [squoteChar] ++
  String.toList "query " ++ [lbraceChar] ++ String.toList " viewer " ++
  [rbraceChar] ++ String.toList " mutation " ++ [lbraceChar] ++
  String.toList " deleteRepository(input: x) " ++ [rbraceChar] ++ [squoteChar]

/-! ### Index and sublist infrastructure -/

theorem getMid (u v : List Char) (x : Char) :
    (u ++ x :: v).get? u.length = some x := by
  induction u with
  | nil => rfl
  | cons a u ih => simpa using ih

theorem dropMid (u v : List Char) (x : Char) :
    (u ++ x :: v).drop (u.length + 1) = v := by
  induction u with
  | nil => rfl
  | cons a u ih => simpa using ih

theorem get?_split {l : List Char} {i : Nat} {c : Char}
    (h : l.get? i = some c) : l = l.take i ++ c :: l.drop (i + 1) := by
  induction l generalizing i with
  | nil => simp at h
  | cons x xs ih =>
    cases i with
    | zero =>
      simp only [List.get?] at h
      cases h
      simp
    | succ j =>
      simp only [List.get?] at h
      simpa using ih h

theorem hasSub2_exists {a b : Char} {l : List Char} :
    hasSub2 a b l = true ↔ ∃ u v, l = u ++ a :: b :: v := by
  induction l with
  | nil =>
    simp only [hasSub2, Bool.false_eq_true, false_iff]
    rintro ⟨u, v, h⟩
    cases u <;> simp at h
  | cons x xs ih =>
    cases xs with
    | nil =>
      simp only [hasSub2, Bool.false_eq_true, false_iff]
      rintro ⟨u, v, h⟩
      cases u <;> simp_all
    | cons y rest =>
      simp only [hasSub2, Bool.or_eq_true, Bool.and_eq_true, decide_eq_true_eq]
      rw [ih]
      constructor
      · rintro (⟨rfl, rfl⟩ | ⟨u, v, h⟩)
        · exact ⟨[], rest, rfl⟩
        · exact ⟨x :: u, v, by simp [h]⟩
      · rintro ⟨u, v, h⟩
        cases u with
        | nil =>
          simp at h
          obtain ⟨rfl, rfl, rfl⟩ := h
          exact Or.inl ⟨rfl, rfl⟩
        | cons z u =>
          simp at h
          obtain ⟨rfl, h⟩ := h
          exact Or.inr ⟨u, v, h⟩

theorem hasSub2_idx {a b : Char} {l : List Char} :
    hasSub2 a b l = true ↔ ∃ i, l.get? i = some a ∧ l.get? (i + 1) = some b := by
  rw [hasSub2_exists]
  constructor
  · rintro ⟨u, v, rfl⟩
    refine ⟨u.length, getMid u _ a, ?_⟩
    have : u ++ a :: b :: v = (u ++ [a]) ++ b :: v := by simp
    rw [this]
    have hl : (u ++ [a]).length = u.length + 1 := by simp
    rw [← hl]
    exact getMid (u ++ [a]) v b
  · rintro ⟨i, ha, hb⟩
    refine ⟨l.take i, l.drop (i + 2), ?_⟩
    have h1 := get?_split ha
    have h2 := get?_split hb
    have hdrop : l.drop (i + 1) = b :: l.drop (i + 2) := by
      have h3 : (l.drop (i + 1)).get? 0 = some b := by
        rw [List.get?_drop]
        simpa using hb
      cases hd : l.drop (i + 1) with
      | nil => rw [hd] at h3; simp at h3
      | cons z t =>
        rw [hd] at h3
        simp only [List.get?] at h3
        cases h3
        have : t = l.drop (i + 2) := by
          have := congrArg (List.drop 1) hd
          simpa [List.drop_drop] using this.symm
        rw [this]
    rw [← hdrop]
    exact h1

/-! ### Safe-pipe replacement preserves what the detector needs -/

theorem get?_replPipes_ne {l : List Char} {i : Nat} {c : Char}
    (h : l.get? i = some c) (hc : c ≠ '|') :
    (replPipes l).get? i = some c := by
  induction l generalizing i with
  | nil => simp at h
  | cons x xs ih =>
    cases i with
    | zero =>
      simp only [List.get?] at h
      cases h
      simp only [replPipes, List.get?]
      have hx : (decide (c = '|') && safePipeAfter xs) = false := by
        simp [hc]
      rw [hx]
      simp
    | succ j =>
      simp only [List.get?] at h
      simp only [replPipes, List.get?]
      exact ih h

theorem get?_replPipes_pipe {l : List Char} {i : Nat}
    (h : l.get? i = some '|') (hs : safePipeAfter (l.drop (i + 1)) = false) :
    (replPipes l).get? i = some '|' := by
  induction l generalizing i with
  | nil => simp at h
  | cons x xs ih =>
    cases i with
    | zero =>
      simp only [List.get?] at h
      cases h
      simp only [List.drop] at hs
      simp only [replPipes, List.get?, hs, Bool.and_false]
      simp
    | succ j =>
      simp only [List.get?] at h
      simp only [List.drop] at hs
      simp only [replPipes, List.get?]
      exact ih h hs

/-! ### File-descriptor replacement preserves what the detector needs -/

theorem replFd_cons_exists (x : Char) (r : List Char) :
    ∃ t, replFd (x :: r) = x :: t := by
  by_cases h : ∃ e rest2, r = '>' :: '&' :: e :: rest2
  · obtain ⟨e, rest2, rfl⟩ := h
    rw [replFd.eq_1]
    by_cases hd : (x.isDigit && e.isDigit) = true
    · rw [if_pos hd]
      exact ⟨_, rfl⟩
    · rw [if_neg hd]
      exact ⟨_, rfl⟩
  · rw [replFd.eq_2]
    · exact ⟨_, rfl⟩
    · intro e rest2 he
      exact h ⟨e, rest2, he⟩

theorem get?_replFd_ne {l : List Char} {i : Nat} {c : Char}
    (hgt : c ≠ '>') (hamp : c ≠ '&') (h : l.get? i = some c) :
    (replFd l).get? i = some c := by
  induction l using replFd.induct generalizing i with
  | case1 x e rest2 hd ih =>
    rw [replFd.eq_1, if_pos hd]
    match i with
    | 0 => simpa using h
    | 1 => simp only [List.get?] at h; exact absurd (Option.some.inj h) (Ne.symm hgt)
    | 2 => simp only [List.get?] at h; exact absurd (Option.some.inj h) (Ne.symm hamp)
    | 3 => simpa using h
    | (j + 4) =>
      simp only [List.get?] at h ⊢
      exact ih h
  | case2 x e rest2 hd ih =>
    rw [replFd.eq_1, if_neg hd]
    match i with
    | 0 => simpa using h
    | (j + 1) =>
      simp only [List.get?] at h ⊢
      exact ih h
  | case3 x rest hne ih =>
    rw [replFd.eq_2 _ _ hne]
    match i with
    | 0 => simpa using h
    | (j + 1) =>
      simp only [List.get?] at h ⊢
      exact ih h
  | case4 => simp at h

theorem get?_replFd_amp {l : List Char} {i : Nat}
    (h1 : l.get? i = some '&') (h2 : l.get? (i + 1) = some '&') :
    (replFd l).get? i = some '&' ∧ (replFd l).get? (i + 1) = some '&' := by
  induction l using replFd.induct generalizing i with
  | case1 x e rest2 hd ih =>
    rw [replFd.eq_1, if_pos hd]
    match i with
    | 0 =>
      simp only [List.get?] at h1 h2
      exact absurd (Option.some.inj h2) (by decide)
    | 1 =>
      simp only [List.get?] at h1
      exact absurd (Option.some.inj h1) (by decide)
    | 2 =>
      simp only [List.get?] at h2
      cases Option.some.inj h2
      have : ('&'.isDigit : Bool) = true := by
        rcases Bool.and_eq_true _ _ |>.mp hd with ⟨_, h⟩
        exact h
      exact absurd this (by decide)
    | 3 =>
      simp only [List.get?] at h1
      cases Option.some.inj h1
      have : ('&'.isDigit : Bool) = true := by
        rcases Bool.and_eq_true _ _ |>.mp hd with ⟨_, h⟩
        exact h
      exact absurd this (by decide)
    | (j + 4) =>
      simp only [List.get?] at h1 h2 ⊢
      exact ih h1 h2
  | case2 x e rest2 hd ih =>
    rw [replFd.eq_1, if_neg hd]
    match i with
    | 0 =>
      simp only [List.get?] at h2
      exact absurd (Option.some.inj h2) (by decide)
    | (j + 1) =>
      simp only [List.get?] at h1 h2 ⊢
      exact ih h1 h2
  | case3 x rest hne ih =>
    rw [replFd.eq_2 _ _ hne]
    match i with
    | 0 =>
      simp only [List.get?] at h1 h2 ⊢
      cases Option.some.inj h1
      refine ⟨rfl, ?_⟩
      cases rest with
      | nil => simp at h2
      | cons y t =>
        simp only [List.get?] at h2
        cases Option.some.inj h2
        obtain ⟨u, hu⟩ := replFd_cons_exists '&' t
        rw [hu]
        rfl
    | (j + 1) =>
      simp only [List.get?] at h1 h2 ⊢
      exact ih h1 h2
  | case4 => simp at h1

/-! ### Safe-pipe lookahead facts -/

theorem allowTools_facts :
    ∀ t ∈ allowTools, t ≠ [] ∧ t.all (·.isAlpha) = true := by decide

theorem boundaryOk_append_of_ne_nil {a : List Char} (b : List Char)
    (ha : a ≠ []) : boundaryOk (a ++ b) = boundaryOk a := by
  cases a with
  | nil => exact absurd rfl ha
  | cons c r => rfl

theorem toolPrefixAt_false_of_head_not_alpha {t : List Char} {c : Char}
    (ht : t ∈ allowTools) (hc : c.isAlpha = false) (w : List Char) :
    toolPrefixAt t (c :: w) = false := by
  obtain ⟨hne, hall⟩ := allowTools_facts t ht
  cases t with
  | nil => exact absurd rfl hne
  | cons tc tr =>
    have htc : tc.isAlpha = true := by
      have := (List.all_eq_true.mp hall) tc (by simp)
      simpa using this
    have hneq : (tc == c) = false := by
      apply beq_eq_false_iff_ne.mpr
      intro he
      rw [he] at htc
      rw [hc] at htc
      exact absurd htc (by decide)
    simp [toolPrefixAt, List.isPrefixOf, hneq]

theorem safePipeAfter_head_not_alpha {c : Char} (hc : c.isAlpha = false)
    (hcs : c ≠ ' ') (w : List Char) : safePipeAfter (c :: w) = false := by
  unfold safePipeAfter
  have hdw : (c :: w).dropWhile (· = ' ') = c :: w := by
    rw [List.dropWhile_cons]
    simp [hcs]
  rw [hdw]
  rw [List.any_eq_false]
  intro t ht
  simp only [Bool.not_eq_true]
  exact toolPrefixAt_false_of_head_not_alpha ht hc w

theorem safePipeAfter_nil : safePipeAfter [] = false := by decide

theorem toolPrefixAt_of_append {tl v' : List Char} {q : Char} {t : List Char}
    (htl : tl ∈ allowTools) (hv' : v' ≠ []) (hq : q.isAlpha = false)
    (h : toolPrefixAt tl (v' ++ q :: t) = true) : toolPrefixAt tl v' = true := by
  rw [toolPrefixAt, Bool.and_eq_true] at h
  obtain ⟨hp, hb⟩ := h
  rw [List.isPrefixOf_iff_prefix] at hp
  obtain ⟨r, hr⟩ := hp
  rcases Nat.lt_trichotomy tl.length v'.length with hlt | heq | hgt
  · -- tl is a strict prefix of the unconsumed text
    have htake : tl = v'.take tl.length := by
      have h1 : tl = (v' ++ q :: t).take tl.length := by
        rw [← hr]
        simp
      rw [List.take_append_eq_append_take] at h1
      rw [Nat.sub_eq_zero_of_le (Nat.le_of_lt hlt)] at h1
      simpa using h1
    have hpre : tl.isPrefixOf v' = true := by
      rw [List.isPrefixOf_iff_prefix]
      refine ⟨v'.drop tl.length, ?_⟩
      have hsplit := List.take_append_drop tl.length v'
      rw [← htake] at hsplit
      exact hsplit
    have hdropne : v'.drop tl.length ≠ [] := by
      intro hnil
      have := congrArg List.length hnil
      simp [List.length_drop] at this
      omega
    have hbd : (v' ++ q :: t).drop tl.length = v'.drop tl.length ++ q :: t := by
      rw [List.drop_append_eq_append_drop]
      rw [Nat.sub_eq_zero_of_le (Nat.le_of_lt hlt)]
      simp
    rw [hbd, boundaryOk_append_of_ne_nil _ hdropne] at hb
    rw [toolPrefixAt, hpre, hb]
    rfl
  · -- tl covers the unconsumed text exactly
    have htake : tl = v' := by
      have h1 : tl = (v' ++ q :: t).take tl.length := by
        rw [← hr]
        simp
      rw [heq] at h1
      simpa using h1
    subst htake
    rw [toolPrefixAt]
    have : tl.isPrefixOf tl = true := by
      rw [List.isPrefixOf_iff_prefix]
    rw [this]
    simp [boundaryOk]
  · -- tl would have to continue past the quote character: impossible
    exfalso
    have hget : tl.get? v'.length = some q := by
      have h1 : (v' ++ q :: t).get? v'.length = some q := getMid v' t q
      rw [← hr] at h1
      rwa [List.get?_append hgt] at h1
    have hmem : q ∈ tl := List.get?_mem hget
    obtain ⟨_, hall⟩ := allowTools_facts tl htl
    have := (List.all_eq_true.mp hall) q hmem
    simp at this
    rw [this] at hq
    exact Bool.true_eq_false.mp hq

theorem safePipeAfter_append_quote {v : List Char} {q : Char} {t : List Char}
    (hv : safePipeAfter v = false) (hq : q.isAlpha = false) (hqs : q ≠ ' ') :
    safePipeAfter (v ++ q :: t) = false := by
  unfold safePipeAfter at hv ⊢
  rw [List.dropWhile_append]
  by_cases he : (v.dropWhile (· = ' ')).isEmpty = true
  · rw [if_pos he]
    have hdw : (q :: t).dropWhile (· = ' ') = q :: t := by
      rw [List.dropWhile_cons]
      simp [hqs]
    rw [hdw, List.any_eq_false]
    intro tl htl
    simp only [Bool.not_eq_true]
    exact toolPrefixAt_false_of_head_not_alpha htl hq t
  · rw [if_neg he]
    rw [List.any_eq_false] at hv ⊢
    intro tl htl
    simp only [Bool.not_eq_true]
    have hv' : v.dropWhile (· = ' ') ≠ [] := by
      intro hnil
      rw [hnil] at he
      exact he rfl
    by_cases hres : toolPrefixAt tl (v.dropWhile (· = ' ') ++ q :: t) = true
    · have := toolPrefixAt_of_append htl hv' hq hres
      have hfalse := hv tl htl
      simp only [Bool.not_eq_true] at hfalse
      rw [this] at hfalse
      exact absurd hfalse (by decide)
    · exact Bool.not_eq_true _ |>.mp hres

theorem safePipeAfter_append_contOk {v w : List Char} (hw : ContOk w)
    (hv : safePipeAfter v = false) : safePipeAfter (v ++ w) = false := by
  rcases hw with rfl | ⟨t, rfl⟩ | ⟨t, rfl⟩
  · simpa using hv
  · exact safePipeAfter_append_quote hv (by decide) (by decide)
  · exact safePipeAfter_append_quote hv (by decide) (by decide)

/-! ### The detector flags each dangerous shape -/

theorem getD_eq_get? (l : List Char) (n : Nat) (d : Char) :
    l.getD n d = (l.get? n).getD d := by
  induction l generalizing n with
  | nil => cases n <;> rfl
  | cons x xs ih =>
    cases n with
    | zero => rfl
    | succ j => simpa [List.getD] using ih j

theorem drop_eq_cons_of_get? {l : List Char} {n : Nat} {c : Char}
    (h : l.get? n = some c) : l.drop n = c :: l.drop (n + 1) := by
  induction l generalizing n with
  | nil => simp at h
  | cons x xs ih =>
    cases n with
    | zero =>
      simp only [List.get?] at h
      cases h
      rfl
    | succ j =>
      simp only [List.get?] at h
      simpa using ih h

theorem pipe_flag {r : List Char} (h : '|' ∈ r) :
    (hasSub2 '|' '|' r || soloPipe r) = true := by
  by_cases hs : hasSub2 '|' '|' r = true
  · simp [hs]
  · obtain ⟨i, hi⟩ := List.mem_iff_get?.mp h
    have hlt : i < r.length := (List.get?_eq_some.mp hi).1
    have hnext : ¬r.get? (i + 1) = some '|' := by
      intro hn
      exact hs (hasSub2_idx.mpr ⟨i, hi, hn⟩)
    have hsolo : soloPipe r = true := by
      rw [soloPipe, List.any_eq_true]
      refine ⟨i, List.mem_range.mpr hlt, ?_⟩
      rw [Bool.and_eq_true, Bool.and_eq_true]
      refine ⟨⟨?_, ?_⟩, ?_⟩
      · rw [getD_eq_get?, hi]
        simp
      · cases i with
        | zero => simp
        | succ j =>
          rw [Bool.or_eq_true]
          right
          have hprev : ¬r.get? j = some '|' := by
            intro hp
            exact hs (hasSub2_idx.mpr ⟨j, hp, hi⟩)
          simp only [Nat.add_sub_cancel, getD_eq_get?]
          cases hj : r.get? j with
          | none => simp
          | some c =>
            have hch : c ≠ '|' := fun he => hprev (by rw [hj, he])
            simpa using hch
      · simp only [getD_eq_get?]
        cases hj : r.get? (i + 1) with
        | none => simp
        | some c =>
          have hch : c ≠ '|' := fun he => hnext (by rw [hj, he])
          simpa using hch
    simp [hsolo]

theorem hasInj_of_semi {l : List Char} (h : (';') ∈ l) :
    hasInjection l = true := by
  obtain ⟨i, hi⟩ := List.mem_iff_get?.mp h
  have h1 := get?_replPipes_ne hi (by decide)
  have h2 := get?_replFd_ne (by decide) (by decide) h1
  have hc : (';') ∈ replFd (replPipes l) := List.get?_mem h2
  simp only [hasInjection]
  simp
  tauto

theorem hasInj_of_backtick {l : List Char} (h : backtickChar ∈ l) :
    hasInjection l = true := by
  obtain ⟨i, hi⟩ := List.mem_iff_get?.mp h
  have h1 := get?_replPipes_ne hi (by decide)
  have h2 := get?_replFd_ne (by decide) (by decide) h1
  have hc : backtickChar ∈ replFd (replPipes l) := List.get?_mem h2
  simp only [hasInjection]
  simp
  tauto

theorem hasInj_of_dollarParen {l : List Char} (h : hasSub2 '$' '(' l = true) :
    hasInjection l = true := by
  obtain ⟨i, h1, h2⟩ := hasSub2_idx.mp h
  have p1 := get?_replFd_ne (by decide) (by decide) (get?_replPipes_ne h1 (by decide))
  have p2 := get?_replFd_ne (by decide) (by decide) (get?_replPipes_ne h2 (by decide))
  have hr : hasSub2 '$' '(' (replFd (replPipes l)) = true :=
    hasSub2_idx.mpr ⟨i, p1, p2⟩
  simp only [hasInjection]
  simp
  tauto

theorem hasInj_of_ampamp {l : List Char} (h : hasSub2 '&' '&' l = true) :
    hasInjection l = true := by
  obtain ⟨i, h1, h2⟩ := hasSub2_idx.mp h
  have p1 := get?_replPipes_ne h1 (by decide)
  have p2 := get?_replPipes_ne h2 (by decide)
  obtain ⟨q1, q2⟩ := get?_replFd_amp p1 p2
  have hr : hasSub2 '&' '&' (replFd (replPipes l)) = true :=
    hasSub2_idx.mpr ⟨i, q1, q2⟩
  simp only [hasInjection]
  simp
  tauto

theorem hasInj_of_pipe_surviving {l : List Char} {i : Nat}
    (h : l.get? i = some '|') (hs : safePipeAfter (l.drop (i + 1)) = false) :
    hasInjection l = true := by
  have p1 := get?_replPipes_pipe h hs
  have p2 := get?_replFd_ne (by decide) (by decide) p1
  have hmem : '|' ∈ replFd (replPipes l) := List.get?_mem p2
  rcases Bool.or_eq_true _ _ |>.mp (pipe_flag hmem) with hcase | hcase
  · simp only [hasInjection]
    simp
    tauto
  · simp only [hasInjection]
    simp
    tauto

theorem hasInj_of_pipepipe {l : List Char} (h : hasSub2 '|' '|' l = true) :
    hasInjection l = true := by
  obtain ⟨i, h1, h2⟩ := hasSub2_idx.mp h
  have hdrop : l.drop (i + 1) = '|' :: l.drop (i + 2) := drop_eq_cons_of_get? h2
  have hs : safePipeAfter (l.drop (i + 1)) = false := by
    rw [hdrop]
    exact safePipeAfter_head_not_alpha (by decide) (by decide) _
  exact hasInj_of_pipe_surviving h1 hs

theorem hasInj_of_lonePipe {l u v : List Char}
    (h : l = u ++ '|' :: v) (hs : safePipeAfter v = false) :
    hasInjection l = true := by
  subst h
  have h1 : (u ++ '|' :: v).get? u.length = some '|' := getMid u v '|'
  have h2 : (u ++ '|' :: v).drop (u.length + 1) = v := dropMid u v '|'
  exact hasInj_of_pipe_surviving h1 (by rw [h2]; exact hs)

theorem hasInj_of_NBad {l : List Char} (h : NBad l) : hasInjection l = true := by
  rcases h with h | h | h | h | h | ⟨u, v, hl, hs⟩
  · exact hasInj_of_semi h
  · exact hasInj_of_backtick h
  · exact hasInj_of_dollarParen h
  · exact hasInj_of_ampamp h
  · exact hasInj_of_pipepipe h
  · exact hasInj_of_lonePipe hl hs

/-! ### The normalizer on well-formed quoting decompositions -/

theorem firstIdx_append {q : Char} {content : List Char} (rest : List Char)
    (h : ¬q ∈ content) :
    firstIdx q (content ++ q :: rest) = some content.length := by
  induction content with
  | nil => simp [firstIdx]
  | cons x xs ih =>
    have hx : x ≠ q := by
      intro he
      exact h (by rw [he]; simp)
    have hxs : ¬q ∈ xs := fun hm => h (by simp [hm])
    simp [firstIdx, hx, ih hxs]

theorem normGo_fuel {n : Nat} : ∀ {l : List Char} {m : Nat},
    l.length ≤ n → l.length ≤ m → normGo n l = normGo m l := by
  induction n with
  | zero =>
    intro l m h1 _
    have : l = [] := List.length_eq_zero.mp (Nat.le_zero.mp h1)
    subst this
    cases m <;> rfl
  | succ k ih =>
    intro l m h1 h2
    cases l with
    | nil => cases m <;> rfl
    | cons x xs =>
      cases m with
      | zero => simp at h2
      | succ k2 =>
        simp only [List.length_cons, Nat.succ_le_succ_iff] at h1 h2
        simp only [normGo]
        by_cases hsq : x = squoteChar
        · rw [if_pos hsq, if_pos hsq]
          cases hfi : firstIdx squoteChar xs with
          | none => rfl
          | some i =>
            have hlen : (xs.drop (i + 1)).length ≤ xs.length := by
              simp [List.length_drop]
            exact congrArg (fun z => squoteChar :: squoteChar :: z)
              (ih (Nat.le_trans hlen h1) (Nat.le_trans hlen h2))
        · rw [if_neg hsq, if_neg hsq]
          by_cases hdq : x = dquoteChar
          · rw [if_pos hdq, if_pos hdq]
            cases hfi : firstIdx dquoteChar xs with
            | none => rfl
            | some i =>
              dsimp only
              have hlen : (xs.drop (i + 1)).length ≤ xs.length := by
                simp [List.length_drop]
              by_cases hm : hasExpansionMarker (xs.take i) = true
              · rw [if_pos hm, if_pos hm]
                exact congrArg
                  (fun z => dquoteChar :: (xs.take i ++ dquoteChar :: z))
                  (ih (Nat.le_trans hlen h1) (Nat.le_trans hlen h2))
              · rw [if_neg hm, if_neg hm]
                exact congrArg (fun z => dquoteChar :: dquoteChar :: z)
                  (ih (Nat.le_trans hlen h1) (Nat.le_trans hlen h2))
          · rw [if_neg hdq, if_neg hdq]
            exact congrArg (x :: ·) (ih h1 h2)

theorem normChars_cons_other {x : Char} {xs : List Char}
    (h1 : x ≠ squoteChar) (h2 : x ≠ dquoteChar) :
    normChars (x :: xs) = x :: normChars xs := by
  show normGo (xs.length + 1) (x :: xs) = x :: normGo xs.length xs
  simp only [normGo, if_neg h1, if_neg h2]

theorem normChars_squote {content rest : List Char} (h : ¬squoteChar ∈ content) :
    normChars (squoteChar :: (content ++ squoteChar :: rest)) =
      squoteChar :: squoteChar :: normChars rest := by
  show normGo ((content ++ squoteChar :: rest).length + 1) _ = _
  simp only [normGo, if_pos rfl, firstIdx_append rest h, dropMid]
  exact congrArg (fun z => squoteChar :: squoteChar :: z)
    (normGo_fuel (by simp [List.length_append]; omega) (Nat.le_refl _))

theorem normChars_dquote {content rest : List Char} (h : ¬dquoteChar ∈ content) :
    normChars (dquoteChar :: (content ++ dquoteChar :: rest)) =
      (if hasExpansionMarker content then
        dquoteChar :: (content ++ dquoteChar :: normChars rest)
      else dquoteChar :: dquoteChar :: normChars rest) := by
  show normGo ((content ++ dquoteChar :: rest).length + 1) _ = _
  have hnd : dquoteChar ≠ squoteChar := by decide
  simp only [normGo, if_neg hnd, if_pos rfl, firstIdx_append rest h, dropMid,
    List.take_left]
  have hfuel : normGo (content ++ dquoteChar :: rest).length rest =
      normChars rest :=
    normGo_fuel (by simp [List.length_append]; omega) (Nat.le_refl _)
  by_cases hm : hasExpansionMarker content = true
  · rw [if_pos hm, if_pos hm, hfuel]
    simp
  · rw [if_neg hm, if_neg hm, hfuel]
    simp

theorem normChars_lit {s : List Char} (t : List Char)
    (h1 : ¬squoteChar ∈ s) (h2 : ¬dquoteChar ∈ s) :
    normChars (s ++ t) = s ++ normChars t := by
  induction s with
  | nil => simp
  | cons x xs ih =>
    have hx1 : x ≠ squoteChar := fun he => h1 (by rw [he]; simp)
    have hx2 : x ≠ dquoteChar := fun he => h2 (by rw [he]; simp)
    have hxs1 : ¬squoteChar ∈ xs := fun hm => h1 (by simp [hm])
    have hxs2 : ¬dquoteChar ∈ xs := fun hm => h2 (by simp [hm])
    rw [List.cons_append, normChars_cons_other hx1 hx2, ih hxs1 hxs2]
    rfl

theorem normChars_render {segs : List Seg} (hwf : segs.all segWFb = true) :
    normChars (render segs) = (segs.map renderNormSeg).flatten := by
  induction segs with
  | nil => rfl
  | cons seg rest ih =>
    rw [List.all_cons, Bool.and_eq_true] at hwf
    obtain ⟨hseg, hrest⟩ := hwf
    have ihr := ih hrest
    cases seg with
    | lit s =>
      simp only [segWFb, Bool.and_eq_true, Bool.not_eq_true] at hseg
      obtain ⟨hs1, hs2⟩ := hseg
      have hns : ¬squoteChar ∈ s := by simp at hs1; exact hs1
      have hnd : ¬dquoteChar ∈ s := by simp at hs2; exact hs2
      show normChars (s ++ render rest) = s ++ _
      rw [normChars_lit _ hns hnd, ihr]
    | squoted s =>
      simp only [segWFb, Bool.not_eq_true] at hseg
      have hns : ¬squoteChar ∈ s := by simp at hseg; exact hseg
      show normChars ((squoteChar :: s ++ [squoteChar]) ++ render rest) = _
      have hshape : (squoteChar :: s ++ [squoteChar]) ++ render rest =
          squoteChar :: (s ++ squoteChar :: render rest) := by
        simp
      rw [hshape, normChars_squote hns, ihr]
      rfl
    | dquoted s =>
      simp only [segWFb, Bool.not_eq_true] at hseg
      have hnd : ¬dquoteChar ∈ s := by simp at hseg; exact hseg
      show normChars ((dquoteChar :: s ++ [dquoteChar]) ++ render rest) = _
      have hshape : (dquoteChar :: s ++ [dquoteChar]) ++ render rest =
          dquoteChar :: (s ++ dquoteChar :: render rest) := by
        simp
      rw [hshape, normChars_dquote hnd, ihr]
      show _ = (renderNormSeg (Seg.dquoted s)) ++ _
      rw [renderNormSeg]
      by_cases hm : hasExpansionMarker s = true
      · rw [if_pos hm, if_pos hm]
        simp
      · rw [if_neg hm, if_neg hm]
        rfl

/-! ### Lifting dangerous shapes through concatenation -/

theorem hasSub2_append_left {a b : Char} {s : List Char} (t : List Char)
    (h : hasSub2 a b s = true) : hasSub2 a b (s ++ t) = true := by
  obtain ⟨u, v, rfl⟩ := hasSub2_exists.mp h
  exact hasSub2_exists.mpr ⟨u, v ++ t, by simp⟩

theorem hasSub2_append_right {a b : Char} (s : List Char) {t : List Char}
    (h : hasSub2 a b t = true) : hasSub2 a b (s ++ t) = true := by
  obtain ⟨u, v, rfl⟩ := hasSub2_exists.mp h
  exact hasSub2_exists.mpr ⟨s ++ u, v, by simp⟩

theorem NBad_append_left {R : List Char} (p : List Char) (h : NBad R) :
    NBad (p ++ R) := by
  rcases h with h | h | h | h | h | ⟨u, v, rfl, hs⟩
  · exact Or.inl (List.mem_append_right p h)
  · exact Or.inr (Or.inl (List.mem_append_right p h))
  · exact Or.inr (Or.inr (Or.inl (hasSub2_append_right p h)))
  · exact Or.inr (Or.inr (Or.inr (Or.inl (hasSub2_append_right p h))))
  · exact Or.inr (Or.inr (Or.inr (Or.inr (Or.inl (hasSub2_append_right p h)))))
  · exact Or.inr (Or.inr (Or.inr (Or.inr (Or.inr
      ⟨p ++ u, v, by simp, hs⟩))))

theorem NBad_of_litBad {s : List Char} (R : List Char)
    (h : litBad s = true) : NBad (s ++ R) := by
  rw [litBad] at h
  simp only [Bool.or_eq_true] at h
  rcases h with ((((h | h) | h) | h) | h)
  · exact Or.inl (List.mem_append_left R (List.elem_iff.mp h))
  · exact Or.inr (Or.inl (List.mem_append_left R (List.elem_iff.mp h)))
  · exact Or.inr (Or.inr (Or.inl (hasSub2_append_left R h)))
  · exact Or.inr (Or.inr (Or.inr (Or.inl (hasSub2_append_left R h))))
  · exact Or.inr (Or.inr (Or.inr (Or.inr (Or.inl (hasSub2_append_left R h)))))

theorem NBad_of_lonePipe {s : List Char} {R : List Char}
    (h : lonePipeAt s = true) (hR : ContOk R) : NBad (s ++ R) := by
  rw [lonePipeAt, List.any_eq_true] at h
  obtain ⟨i, _, hcond⟩ := h
  rw [Bool.and_eq_true] at hcond
  obtain ⟨h1, h2⟩ := hcond
  have hget : s.get? i = some '|' := of_decide_eq_true h1
  have hsafe : safePipeAfter (s.drop (i + 1)) = false := by
    rcases hb : safePipeAfter (s.drop (i + 1)) with _ | _
    · rfl
    · rw [hb] at h2
      exact absurd h2 (by decide)
  refine Or.inr (Or.inr (Or.inr (Or.inr (Or.inr
    ⟨s.take i, s.drop (i + 1) ++ R, ?_, ?_⟩))))
  · conv_lhs => rw [get?_split hget]
    simp
  · exact safePipeAfter_append_contOk hR hsafe

theorem NBad_of_dquote_marker {s : List Char} (R : List Char)
    (h : hasExpansionMarker s = true) :
    NBad (dquoteChar :: s ++ dquoteChar :: R) := by
  rw [hasExpansionMarker, Bool.or_eq_true] at h
  rcases h with h | h
  · refine Or.inr (Or.inl ?_)
    have : backtickChar ∈ s := List.elem_iff.mp h
    simp [this]
  · refine Or.inr (Or.inr (Or.inl ?_))
    obtain ⟨u, v, rfl⟩ := hasSub2_exists.mp h
    exact hasSub2_exists.mpr
      ⟨dquoteChar :: u, v ++ dquoteChar :: R, by simp⟩

theorem contOk_flatten (rest : List Seg)
    (h : match rest with | Seg.lit _ :: _ => False | _ => True) :
    ContOk ((rest.map renderNormSeg).flatten) := by
  cases rest with
  | nil => exact Or.inl rfl
  | cons seg r =>
    cases seg with
    | lit s => exact absurd h (by simp)
    | squoted s =>
      refine Or.inr (Or.inl ⟨squoteChar :: (r.map renderNormSeg).flatten, ?_⟩)
      rfl
    | dquoted s =>
      refine Or.inr (Or.inr ?_)
      show ∃ t, (renderNormSeg (Seg.dquoted s) ++ _) = dquoteChar :: t
      rw [renderNormSeg]
      by_cases hm : hasExpansionMarker s = true
      · rw [if_pos hm]
        exact ⟨s ++ dquoteChar :: (r.map renderNormSeg).flatten, by simp⟩
      · rw [if_neg hm]
        exact ⟨dquoteChar :: (r.map renderNormSeg).flatten, rfl⟩

theorem noAdjLits_tail {seg : Seg} {rest : List Seg}
    (h : noAdjLits (seg :: rest) = true) : noAdjLits rest = true := by
  cases seg with
  | lit s =>
    cases rest with
    | nil => rfl
    | cons seg2 r =>
      cases seg2 with
      | lit s2 => exact absurd h (by simp [noAdjLits])
      | squoted s2 => exact h
      | dquoted s2 => exact h
  | squoted s => exact h
  | dquoted s => exact h

theorem NBad_flatten {segs : List Seg} (hwf : wfSegs segs = true)
    (hbad : badSegs segs = true) :
    NBad ((segs.map renderNormSeg).flatten) := by
  induction segs with
  | nil => exact absurd hbad (by simp [badSegs])
  | cons seg rest ih =>
    rw [wfSegs, Bool.and_eq_true, List.all_cons, Bool.and_eq_true] at hwf
    obtain ⟨⟨hseg, hall⟩, hadj⟩ := hwf
    have hwfrest : wfSegs rest = true := by
      rw [wfSegs, Bool.and_eq_true]
      exact ⟨hall, noAdjLits_tail hadj⟩
    cases seg with
    | lit s =>
      rw [badSegs] at hbad
      simp only [Bool.or_eq_true] at hbad
      show NBad (s ++ (rest.map renderNormSeg).flatten)
      rcases hbad with (hb | hb) | hb
      · exact NBad_of_litBad _ hb
      · refine NBad_of_lonePipe hb (contOk_flatten rest ?_)
        cases rest with
        | nil => trivial
        | cons seg2 r =>
          cases seg2 with
          | lit s2 => exact absurd hadj (by simp [noAdjLits])
          | squoted s2 => trivial
          | dquoted s2 => trivial
      · exact NBad_append_left s (ih hwfrest hb)
    | squoted s =>
      rw [badSegs] at hbad
      show NBad ([squoteChar, squoteChar] ++ (rest.map renderNormSeg).flatten)
      exact NBad_append_left _ (ih hwfrest hbad)
    | dquoted s =>
      rw [badSegs] at hbad
      rw [Bool.or_eq_true] at hbad
      show NBad (renderNormSeg (Seg.dquoted s) ++ (rest.map renderNormSeg).flatten)
      rcases hbad with hb | hb
      · rw [renderNormSeg, if_pos hb]
        have hshape :
            (dquoteChar :: s ++ [dquoteChar]) ++ (rest.map renderNormSeg).flatten =
            dquoteChar :: s ++ dquoteChar :: (rest.map renderNormSeg).flatten := by
          simp
        rw [hshape]
        exact NBad_of_dquote_marker _ hb
      · exact NBad_append_left _ (ih hwfrest hb)

/-! ### Extractor anchoring support -/

theorem takeWhile_all_append {p : Char → Bool} {u : List Char} (v : List Char)
    (h : u.all p = true) : (u ++ v).takeWhile p = u ++ v.takeWhile p := by
  induction u with
  | nil => simp
  | cons x xs ih =>
    rw [List.all_cons, Bool.and_eq_true] at h
    rw [List.cons_append, List.takeWhile_cons, if_pos h.1, ih h.2]
    rfl

theorem char_not_ws_of_nameChar {x : Char} (hx : isNameChar x = true) :
    (!x.isWhitespace) = true := by
  by_cases hw : x.isWhitespace = true
  · exfalso
    have hx' := hx
    rw [isNameChar] at hx'
    simp only [Char.isWhitespace] at hw
    rcases (by simpa using hw :
        ((x = ' ' ∨ x = Char.ofNat 9) ∨ x = Char.ofNat 13) ∨ x = Char.ofNat 10) with
      ((rfl | rfl) | rfl) | rfl <;> exact absurd hx' (by decide)
  · simp only [Bool.not_eq_true] at hw
    rw [hw]
    rfl

theorem matchWord_token {w l r : List Char}
    (hw : w.all (fun c => !c.isWhitespace) = true)
    (h : matchWord w l = some r) : firstToken l = w := by
  rw [matchWord] at h
  by_cases hp : w.isPrefixOf l = true
  · rw [if_pos hp] at h
    rw [List.isPrefixOf_iff_prefix] at hp
    obtain ⟨tail, htail⟩ := hp
    have hdrop : l.drop w.length = tail := by
      rw [← htail]
      simp
    rw [hdrop] at h
    cases tail with
    | nil => simp at h
    | cons c rest =>
      by_cases hws : c.isWhitespace = true
      · rw [firstToken, ← htail, takeWhile_all_append _ hw]
        rw [List.takeWhile_cons, if_neg (by simp [hws])]
        simp
      · have h' : (if c.isWhitespace = true then some (c :: rest) else none) =
            some r := h
        rw [if_neg hws] at h'
        simp at h'
  · rw [if_neg (by simpa using hp)] at h
    simp at h

theorem matchWord_none_of_token {w l : List Char}
    (hw : w.all (fun c => !c.isWhitespace) = true)
    (ht : firstToken l ≠ w) : matchWord w l = none := by
  cases hm : matchWord w l with
  | none => rfl
  | some r => exact absurd (matchWord_token hw hm) ht

theorem matchWord_some_prefix {w l r : List Char}
    (h : matchWord w l = some r) : w.isPrefixOf l = true := by
  rw [matchWord] at h
  by_cases hp : w.isPrefixOf l = true
  · exact hp
  · rw [if_neg (by simpa using hp)] at h
    simp at h

theorem skipAssign_none {l : List Char}
    (h : (firstToken l).contains '=' = false) : skipAssign l = none := by
  cases l with
  | nil => rfl
  | cons c rest =>
    by_cases hnh : isNameHead c = true
    · simp only [skipAssign, if_pos hnh]
      cases hd : (c :: rest).dropWhile isNameChar with
      | nil => rfl
      | cons c' v =>
        by_cases hc' : c' = '='
        · exfalso
          subst hc'
          have hsplit : c :: rest =
              (c :: rest).takeWhile isNameChar ++ '=' :: v := by
            conv_lhs => rw [← List.takeWhile_append_dropWhile isNameChar (c :: rest)]
            rw [hd]
          have hall : ((c :: rest).takeWhile isNameChar).all
              (fun x => !x.isWhitespace) = true := by
            rw [List.all_eq_true]
            intro x hx
            have := (List.all_eq_true.mp (List.all_takeWhile : ((c :: rest).takeWhile isNameChar).all isNameChar = true)) x hx
            exact char_not_ws_of_nameChar this
          have hft : firstToken (c :: rest) =
              (c :: rest).takeWhile isNameChar ++
                ('=' :: v).takeWhile (fun x => !x.isWhitespace) := by
            rw [firstToken]
            conv_lhs => rw [hsplit]
            exact takeWhile_all_append _ hall
          have hmem : '=' ∈ firstToken (c :: rest) := by
            rw [hft]
            apply List.mem_append_right
            rw [List.takeWhile_cons, if_pos (by decide)]
            simp
          rw [← List.elem_iff] at hmem
          have hc2 : (firstToken (c :: rest)).contains '=' = true := hmem
          rw [h] at hc2
          exact absurd hc2 (by decide)
        · split
          · rename_i v' heq
            injection heq with h1 h2
            exact absurd h1 hc'
          · rfl
    · simp [skipAssign, hnh]

theorem skipAssigns_eq_self {l : List Char} (h : skipAssign l = none) :
    skipAssigns l = l := by
  rw [skipAssigns]
  cases l.length with
  | zero => rfl
  | succ n => simp [skipAssignsGo, h]

/-! ### The claims about the policy engine -/

/-- Claim C1: every failure mode of the engine (malformed input,
out-of-domain command, detected injection, ambiguous classification)
resolves to Defer or Deny, and an Allow verdict can only arise outside every
failure mode — the engine never fails open into an implicit Allow. -/
theorem dyad_C1_no_fail_open (inp : EngineInput) :
    (isFailureMode inp = true →
      (evaluate inp).verdict = Verdict.defer ∨
      (evaluate inp).verdict = Verdict.deny) ∧
    ((evaluate inp).verdict = Verdict.allow → isFailureMode inp = false) := by
  cases inp with
  | malformed =>
    exact ⟨fun _ => Or.inl rfl, fun h => absurd h (by decide)⟩
  | request tn cmd =>
    by_cases htn : tn = governedHostTool
    · subst htn
      by_cases hinj : hasInjection (normChars cmd) = true
      · constructor
        · intro _
          right
          simp [evaluate, hinj]
        · intro h
          simp [evaluate, hinj] at h
      · cases hex : extract cmd with
        | none =>
          constructor
          · intro _
            left
            simp [evaluate, hinj, hex]
          · intro h
            simp [evaluate, hinj, hex] at h
        | some inv =>
          constructor
          · intro hf
            have hdef : (classify inv).verdict = Verdict.defer := by
              simp [isFailureMode, hinj, hex] at hf
              exact hf
            left
            simp [evaluate, hinj, hex, hdef]
          · intro h
            simp [evaluate, hinj, hex] at h
            simp [isFailureMode, hinj, hex, h]
    · constructor
      · intro _
        left
        simp [evaluate, htn]
      · intro h
        simp [evaluate, htn] at h

/-- Witness for C1 at a concrete failing input: a command whose
classification is ambiguous defers. -/
theorem dyad_C1_no_fail_open_witness :
    (evaluate (EngineInput.request "Bash" (String.toList "gh foobar baz"))).verdict =
      Verdict.defer ∨
    (evaluate (EngineInput.request "Bash" (String.toList "gh foobar baz"))).verdict =
      Verdict.deny :=
  (dyad_C1_no_fail_open
    (EngineInput.request "Bash" (String.toList "gh foobar baz"))).1 (by decide)

/-- Claim C2: every well-formed command containing, in unquoted text, an
unescaped statement separator, and-and, pipe-pipe, lone pipe not followed by
an allow-listed text-processing tool, backtick, or dollar-paren
substitution — or a double-quoted span carrying an expansion marker — is
flagged by the Injection Detector run after the Quoting Normalizer; content
strictly inside single-quoted spans or expansion-free double-quoted spans is
exactly what the hypotheses exempt. -/
theorem dyad_C2_injection_detector_flags (segs : List Seg)
    (hwf : wfSegs segs = true) (hbad : badSegs segs = true) :
    hasInjection (normChars (render segs)) = true := by
  have hall : segs.all segWFb = true := by
    rw [wfSegs, Bool.and_eq_true] at hwf
    exact hwf.1
  rw [normChars_render hall]
  exact hasInj_of_NBad (NBad_flatten hwf hbad)

/-- Witness for C2 at a concrete command containing an and-and outside a
single-quoted span. -/
theorem dyad_C2_injection_detector_flags_witness :
    wfSegs [Seg.lit (String.toList "gh pr view 1 && rm -rf /"),
            Seg.squoted (String.toList "harmless; text")] = true ∧
    hasInjection (normChars (render
      [Seg.lit (String.toList "gh pr view 1 && rm -rf /"),
       Seg.squoted (String.toList "harmless; text")])) = true :=
  ⟨by decide,
   dyad_C2_injection_detector_flags _ (by decide) (by decide)⟩

/-- Claim C3: a detected injection always denies, taking precedence over
every other classification (the universally quantified command includes
those whose extracted invocation would classify as Allow), and the check
runs on the normalized original command, not on the extracted
invocation. -/
theorem dyad_C3_injection_denies (cmd : List Char)
    (h : hasInjection (normChars cmd) = true) :
    evaluate (EngineInput.request governedHostTool cmd) =
      ⟨Verdict.deny, "injection detected"⟩ := by
  simp [evaluate, h]

/-- Witness for C3: a command whose extracted invocation would be allowed by
the read-only table is still denied because the original command carries an
injection. -/
theorem dyad_C3_injection_denies_witness :
    hasInjection (normChars (String.toList "gh pr view 123 && rm -rf /")) = true ∧
    (∃ inv, extract (String.toList "gh pr view 123 && rm -rf /") = some inv ∧
      (classify inv).verdict = Verdict.allow) ∧
    evaluate (EngineInput.request governedHostTool
      (String.toList "gh pr view 123 && rm -rf /")) =
      ⟨Verdict.deny, "injection detected"⟩ :=
  ⟨by decide,
   ⟨String.toList "gh pr view 123 && rm -rf /", by decide, by decide⟩,
   dyad_C3_injection_denies _ (by decide)⟩

/-- Claim C4: the engine is a pure function from Command to Decision — any
two evaluations of the same input yield the identical Decision, there being
no hidden or mutable state in the model. -/
theorem dyad_C4_determinism (inp : EngineInput) (d₁ d₂ : Decision)
    (h₁ : evaluate inp = d₁) (h₂ : evaluate inp = d₂) : d₁ = d₂ := by
  rw [← h₁, ← h₂]

/-- Witness for C4 at a concrete input. -/
theorem dyad_C4_determinism_witness :
    (⟨Verdict.defer, "malformed input"⟩ : Decision) =
      ⟨Verdict.defer, "malformed input"⟩ :=
  dyad_C4_determinism EngineInput.malformed _ _ rfl rfl

/-- Claim C5: the Command Extractor's match is anchored at the start: the
invocation keyword can only be recognized at the anchor position reached by
unwinding the bounded wrapper/assignment prefix, so for every command whose
anchor token is not the keyword — in particular every command in which the
keyword appears only at a non-initial position, such as an argument of an
unrelated command, with or without wrapper/assignment prefixes — extraction
returns none rather than an error; and any successful extraction is exactly
the anchor suffix, beginning with the keyword. -/
theorem dyad_C5_extractor_anchored (cmd : List Char) :
    (firstToken (anchorRest cmd) ≠ ghWord → extract cmd = none) ∧
    (∀ inv, extract cmd = some inv →
      inv = anchorRest cmd ∧ ghWord.isPrefixOf inv = true) := by
  constructor
  · intro hb
    cases hm : matchWord ghWord (anchorRest cmd) with
    | none => simp [extract, hm]
    | some r => exact absurd (matchWord_token (by decide) hm) hb
  · intro inv hi
    rw [extract] at hi
    cases hm : matchWord ghWord (anchorRest cmd) with
    | none =>
      rw [hm] at hi
      simp at hi
    | some r =>
      rw [hm] at hi
      simp only [Option.some.injEq] at hi
      subst hi
      exact ⟨rfl, matchWord_some_prefix hm⟩

/-- Witness for C5: three destructive commands carrying the invocation
keyword only at a non-initial position — bare, wrapper-prefixed, and
assignment-prefixed — are all refused by the extractor. -/
theorem dyad_C5_extractor_anchored_witness :
    (firstToken (anchorRest (String.toList "rm -rf / && gh pr view 1")) ≠ ghWord ∧
      extract (String.toList "rm -rf / && gh pr view 1") = none) ∧
    (firstToken (anchorRest (String.toList "sudo rm -rf / gh pr view 1")) ≠ ghWord ∧
      extract (String.toList "sudo rm -rf / gh pr view 1") = none) ∧
    (firstToken (anchorRest (String.toList "TOKEN=x rm -rf / gh pr view 1")) ≠ ghWord ∧
      extract (String.toList "TOKEN=x rm -rf / gh pr view 1") = none) :=
  ⟨⟨by decide,
    (dyad_C5_extractor_anchored (String.toList "rm -rf / && gh pr view 1")).1
      (by decide)⟩,
   ⟨by decide,
    (dyad_C5_extractor_anchored (String.toList "sudo rm -rf / gh pr view 1")).1
      (by decide)⟩,
   ⟨by decide,
    (dyad_C5_extractor_anchored (String.toList "TOKEN=x rm -rf / gh pr view 1")).1
      (by decide)⟩⟩

/-- Claim C6: in the GraphQL sub-classifier, mutation detection is decided
first and wins regardless of declared operation order (the first clause
holds for every payload, however its `query` keyword is placed): a found
mutation denies unless its immediate operation name is on the fixed
review-workflow allow-list; a query with no mutation allows; neither
keyword defers. -/
theorem dyad_C6_graphql_mutation_precedence (p : List Char) :
    (∀ n, findMutationName p = some n →
      classifyGraphql p =
        (if allowedMutations.contains n then
          (⟨Verdict.allow, "allow-listed review-workflow mutation"⟩ : Decision)
        else ⟨Verdict.deny, "GraphQL mutation"⟩)) ∧
    (findMutationName p = none → hasQueryOp p = true →
      classifyGraphql p = ⟨Verdict.allow, "GraphQL query"⟩) ∧
    (findMutationName p = none → hasQueryOp p = false →
      classifyGraphql p = ⟨Verdict.defer, "ambiguous GraphQL payload"⟩) := by
  refine ⟨?_, ?_, ?_⟩
  · intro n hn
    simp [classifyGraphql, hn]
  · intro hn hq
    simp [classifyGraphql, hn, hq]
  · intro hn hq
    simp [classifyGraphql, hn, hq]

/-- Witness for C6: a payload that declares a `query` operation first and
nests a disallowed mutation afterwards is still denied — the mutation wins
over the declared order. -/
theorem dyad_C6_graphql_mutation_precedence_witness :
    findMutationName graphqlProbe = some (String.toList "deleteRepository") ∧
    hasQueryOp graphqlProbe = true ∧
    classifyGraphql graphqlProbe = ⟨Verdict.deny, "GraphQL mutation"⟩ := by
  refine ⟨by decide, by decide, ?_⟩
  have h := (dyad_C6_graphql_mutation_precedence graphqlProbe).1
    (String.toList "deleteRepository") (by decide)
  have hc : allowedMutations.contains (String.toList "deleteRepository") = false := by
    decide
  rw [hc] at h
  simpa using h

/-! ### The claims about the two key-test scripts -/

/-- Counterexample to C7: `test-google-key.py` exits with status 1 when the
key test fails (here, on a timeout), so the program's exit status is not
always success. -/
theorem dyad_C7_exit_counterexample :
    googleKeyExit HttpOutcome.timeout ≠ 0 := by decide

/-- Amended C7: `test-gemini-flash-latest.py` always exits 0 whatever the
request outcome, while `test-google-key.py` exits 0 exactly when its key
test succeeds — its verdict is communicated through the exit code. -/
theorem dyad_C7_exit_codes_amended :
    (∀ o, geminiExit o = 0) ∧
    (∀ o, (googleKeyExit o = 0 ↔ test_google_api o = true)) := by
  constructor
  · intro o
    rw [geminiExit]
    cases geminiTryBody o <;> rfl
  · intro o
    rw [googleKeyExit]
    cases h : test_google_api o <;> simp [h]

/-- Claim C8: the blocking call to the external API is made with a hard
timeout (10 seconds, in both scripts), and a timeout, a request-level
error, any other exception, an unparseable body, or a non-success status
all yield the negative result False — never the positive result True. -/
theorem dyad_C8_advisory_negative_outcomes :
    googleKeyRequestTimeout = some 10 ∧ geminiRequestTimeout = some 10 ∧
    test_google_api HttpOutcome.timeout = false ∧
    test_google_api HttpOutcome.requestError = false ∧
    test_google_api HttpOutcome.otherError = false ∧
    (∀ s, test_google_api (HttpOutcome.response s Body.notJson) = false) ∧
    (∀ s b, s ≠ 200 → test_google_api (HttpOutcome.response s b) = false) := by
  refine ⟨rfl, rfl, rfl, rfl, rfl, ?_, ?_⟩
  · intro s
    by_cases h : s = 200 <;> simp [test_google_api, h]
  · intro s b h
    simp [test_google_api, h]

/-- Witness for C8 at a concrete non-success outcome. -/
theorem dyad_C8_advisory_negative_outcomes_witness :
    test_google_api (HttpOutcome.response 429 (Body.json Json.null)) = false :=
  dyad_C8_advisory_negative_outcomes.2.2.2.2.2.2 429 (Body.json Json.null)
    (by decide)

/-- Counterexample to C9: a 200 response whose `candidates` list is
non-empty but whose first candidate lacks the `content.parts[0].text`
structure makes `test_google_api` return False (the KeyError is caught by
the final `except`), although the claim's iff demands True. -/
theorem dyad_C9_iff_counterexample :
    test_google_api (HttpOutcome.response 200 (Body.json
      (Json.obj [("candidates", Json.arr [Json.null])]))) = false ∧
    claimCandidatesNonEmpty (Body.json
      (Json.obj [("candidates", Json.arr [Json.null])])) = true := by decide

/-- Amended C9: `test_google_api` is total over the modelled outcomes and
returns True iff the response has status 200 and a JSON body whose
`candidates` member is present and non-empty and whose first candidate
carries the `content.parts[0].text` structure; every other outcome returns
False, and no exception propagates (the model is a total function). -/
theorem dyad_C9_success_iff_amended (o : HttpOutcome) :
    test_google_api o = true ↔ goodOutcome o = true := by
  cases o with
  | timeout => simp [test_google_api, goodOutcome]
  | requestError => simp [test_google_api, goodOutcome]
  | otherError => simp [test_google_api, goodOutcome]
  | response s body =>
    cases body with
    | notJson =>
      by_cases hs : s = 200 <;> simp [test_google_api, goodOutcome, hs]
    | json d =>
      by_cases hs : s = 200
      · subst hs
        simp only [test_google_api, goodOutcome, if_pos rfl]
        rw [candChain, textExtract]
        cases hk : hasKey d "candidates" with
        | none => simp
        | some hkb =>
          cases hkb with
          | false => simp
          | true =>
            simp only [Option.some_bind, if_pos rfl]
            cases hg : getItem d "candidates" with
            | none => simp
            | some c =>
              cases hl : pyLen c with
              | none => simp [hl]
              | some n =>
                by_cases hn : n > 0
                · cases h0 : getIdx c 0 with
                  | none => simp [hl, hn, h0]
                  | some c0 =>
                    cases h1 : getItem c0 "content" with
                    | none => simp [hl, hn, h0, h1]
                    | some ct =>
                      cases h2 : getItem ct "parts" with
                      | none => simp [hl, hn, h0, h1, h2]
                      | some p =>
                        cases h3 : getIdx p 0 with
                        | none => simp [hl, hn, h0, h1, h2, h3]
                        | some p0 =>
                          cases h4 : getItem p0 "text" with
                          | none => simp [hl, hn, h0, h1, h2, h3, h4]
                          | some t => simp [hl, hn, h0, h1, h2, h3, h4]
                · simp [hl, hn]
      · simp [test_google_api, goodOutcome, hs]

/-- Claim C10: `test-gemini-flash-latest.py` terminates normally with exit
status 0 for every outcome of its single HTTP request — the whole
request/response handling sits inside a try/except catching every
exception, and the script never calls exit with a non-zero status. -/
theorem dyad_C10_gemini_exit_zero (o : HttpOutcome) : geminiExit o = 0 := by
  rw [geminiExit]
  cases geminiTryBody o <;> rfl

end Dyad
